import Mathlib

/-!
Verification of the Huffman compression engine in
`src/huffman-encoder-c/huffman.c`.

The C program is shallowly embedded: byte streams are `List Nat` (every
element `< 256`, matching what `fgetc` can return), machine integers are
`Nat`/`Int` with explicit reductions modulo powers of two where the C
performs wrapping arithmetic, and the `FILE*` sinks of the writers are
explicit `List Nat` accumulators.  Fallible C paths (a `NULL` return, a
dereference of a `NULL` child pointer, the out-of-bounds read of a
zero-length node array) are modelled with `Option`, `none` standing for
the failure.
-/

set_option maxRecDepth 100000

namespace Huffman

/-- Pointwise update of a `Nat`-indexed array modelled as a function
(used for the C arrays `freq[c]++`, `frequenties[character] = ...`,
`encoding_table[...] = ...`). -/
def updf {α : Type} (f : Nat → α) (i : Nat) (v : α) : Nat → α :=
  fun j => if j = i then v else f j

/-- The `HuffmanNode` struct of huffman.c.  `create_node` fills
`character` and `weight` and leaves both children `NULL` (a leaf);
`create_parent_node` fills both children and sets
`weight = left->weight + right->weight` (an internal node), leaving
`character` unused.  The two shapes are the two constructors. -/
inductive HuffmanNode : Type where
  | leaf (character : Nat) (weight : Nat)
  | internal (left right : HuffmanNode)
deriving DecidableEq

/-- Node weight: stored directly in a leaf; `create_parent_node`
computes the sum of the children's weights. -/
def HuffmanNode.weight : HuffmanNode → Nat
  | .leaf _ w => w
  | .internal l r => l.weight + r.weight

/-- `is_leaf` of huffman.c (`left == NULL && right == NULL`). -/
def HuffmanNode.is_leaf : HuffmanNode → Bool
  | .leaf _ _ => true
  | .internal _ _ => false

/-- Number of leaves of a tree (proof-side measure). -/
def HuffmanNode.leafCount : HuffmanNode → Nat
  | .leaf _ _ => 1
  | .internal l r => l.leafCount + r.leafCount

/-- Height of a tree (proof-side measure): longest root-to-leaf edge
count. -/
def HuffmanNode.height : HuffmanNode → Nat
  | .leaf _ _ => 0
  | .internal l r => 1 + max l.height r.height

/-- One bubble pass of `sort_nodes`, restricted to the first `m`
adjacent comparisons: the C inner loop
`for (j = 0; j < count - i - 1; j++)` swaps `nodes[j]` and
`nodes[j+1]` exactly when `nodes[j]->weight > nodes[j+1]->weight`. -/
def cPass : Nat → List HuffmanNode → List HuffmanNode
  | 0, l => l
  | _ + 1, [] => []
  | _ + 1, [a] => [a]
  | m + 1, a :: b :: rest =>
    if b.weight < a.weight then b :: cPass m (a :: rest)
    else a :: cPass m (b :: rest)

/-- The outer loop of `sort_nodes`: pass `i` (for `i = 0 .. count-2`)
performs `count - i - 1` comparisons, so the widths are
`count-1, count-2, ..., 1`. -/
def bubbleAux : Nat → List HuffmanNode → List HuffmanNode
  | 0, l => l
  | m + 1, l => bubbleAux m (cPass (m + 1) l)

/-- `sort_nodes` of huffman.c: bubble sort ascending by weight. -/
def sort_nodes (l : List HuffmanNode) : List HuffmanNode :=
  bubbleAux (l.length - 1) l

theorem length_cPass (m : Nat) (l : List HuffmanNode) :
    (cPass m l).length = l.length := by
  induction m generalizing l with
  | zero => rfl
  | succ m ih =>
    match l with
    | [] => rfl
    | [a] => rfl
    | a :: b :: rest =>
      simp only [cPass]
      split <;> simp [ih]

theorem length_bubbleAux (m : Nat) (l : List HuffmanNode) :
    (bubbleAux m l).length = l.length := by
  induction m generalizing l with
  | zero => rfl
  | succ m ih => simp [bubbleAux, ih, length_cPass]

theorem length_sort_nodes (l : List HuffmanNode) :
    (sort_nodes l).length = l.length := by
  simp [sort_nodes, length_bubbleAux]

/-- The merging loop of `build_huffman_tree`
(`while (node_count > 1) { sort; merge nodes[0], nodes[1]; shift; }`).
Each iteration removes one node, so the loop runs exactly
`node_count - 1` times; the recursion is driven by a `fuel` counter
initialised to the initial `node_count`, which therefore never runs
out (`buildLoopFuel_congr` below shows any sufficient fuel gives the
same result).  On an empty working list the C code falls through to
`return nodes[0]`, an out-of-bounds read of a zero-length stack
array; that undefined outcome is modelled as `none`. -/
def buildLoopFuel : Nat → List HuffmanNode → Option HuffmanNode
  | _, [] => none
  | _, [n] => some n
  | 0, _ :: _ :: _ => none
  | fuel + 1, a :: b :: rest =>
    match sort_nodes (a :: b :: rest) with
    | x :: y :: s => buildLoopFuel fuel (HuffmanNode.internal x y :: s)
    | _ => none

/-- The merging loop, entered with fuel equal to the working list's
length (the C `node_count`). -/
def buildLoop (l : List HuffmanNode) : Option HuffmanNode :=
  buildLoopFuel l.length l

/-- `build_huffman_tree` of huffman.c: one leaf per symbol `i < freq_size`
with `freq[i] > 0` (in ascending symbol order), then the merging loop. -/
def build_huffman_tree (freq : Nat → Nat) (freq_size : Nat) :
    Option HuffmanNode :=
  buildLoop ((List.range freq_size).filterMap
    (fun i => if 0 < freq i then some (.leaf i (freq i)) else none))

theorem buildLoopFuel_nil (f : Nat) : buildLoopFuel f [] = none := by
  cases f <;> rfl

theorem buildLoopFuel_one (f : Nat) (n : HuffmanNode) :
    buildLoopFuel f [n] = some n := by
  cases f <;> rfl

theorem buildLoopFuel_congr (f₁ f₂ : Nat) (l : List HuffmanNode)
    (h₁ : l.length ≤ f₁ + 1) (h₂ : l.length ≤ f₂ + 1) :
    buildLoopFuel f₁ l = buildLoopFuel f₂ l := by
  induction f₁ generalizing f₂ l with
  | zero =>
    match l with
    | [] => rw [buildLoopFuel_nil, buildLoopFuel_nil]
    | [n] => rw [buildLoopFuel_one, buildLoopFuel_one]
    | a :: b :: rest => simp at h₁
  | succ f₁ ih =>
    match l with
    | [] => rw [buildLoopFuel_nil, buildLoopFuel_nil]
    | [n] => rw [buildLoopFuel_one, buildLoopFuel_one]
    | a :: b :: rest =>
      match f₂ with
      | 0 => simp at h₂
      | f₂ + 1 =>
        simp only [buildLoopFuel]
        have hs := length_sort_nodes (a :: b :: rest)
        match hsort : sort_nodes (a :: b :: rest) with
        | x :: y :: s =>
          rw [hsort] at hs
          simp only [List.length_cons] at hs h₁ h₂
          exact ih _ _ (by simp only [List.length_cons]; omega)
            (by simp only [List.length_cons]; omega)
        | [] => rw [hsort] at hs
        | [x] => rw [hsort] at hs

/-- Unfolding of one iteration of the merging loop, in terms of the
sorted working list. -/
theorem buildLoop_cons₂ (a b : HuffmanNode) (rest : List HuffmanNode)
    (x y : HuffmanNode) (s : List HuffmanNode)
    (h : sort_nodes (a :: b :: rest) = x :: y :: s) :
    buildLoop (a :: b :: rest) = buildLoop (HuffmanNode.internal x y :: s) := by
  have hs := length_sort_nodes (a :: b :: rest)
  rw [h] at hs
  simp only [List.length_cons] at hs
  simp only [buildLoop, List.length_cons, buildLoopFuel, h]
  exact buildLoopFuel_congr _ _ _ (by simp only [List.length_cons]; omega)
    (by simp only [List.length_cons]; omega)

example : build_huffman_tree (fun i => if i = 97 then 2 else if i = 98 then 1 else 0) 256
    = some (.internal (.leaf 98 1) (.leaf 97 2)) := by decide

example : build_huffman_tree (fun i => if i = 97 then 3 else 0) 256
    = some (.leaf 97 3) := by decide

example : build_huffman_tree (fun _ => 0) 256 = none := by decide

/-- The `HuffmanCode` struct of huffman.c: a code string (characters
`'0'`/`'1'`, the C `char code[256]` buffer up to its terminator), the
`length` field (zero-initialised and never assigned anywhere in the
program), and the `exists` flag (named `present` here because `exists`
is reserved). -/
structure HuffmanCode : Type where
  code : List Char
  length : Nat
  present : Bool
deriving DecidableEq

/-- The zero-initialised `encoding_table[256] = {0}` of `encode()`. -/
def initTable : Nat → HuffmanCode := fun _ => ⟨[], 0, false⟩

/-- `build_encoding_table` of huffman.c.  The C threads a character
buffer and a depth; the buffer's first `depth` characters are the
accumulated path, modelled as the list `code`.  On a leaf the path is
null-terminated and copied into the entry for the leaf's character
(cast back through `unsigned char`), and `exists` is set; otherwise
`'0'` is appended and the left child visited, then `'1'` and the
right child. -/
def build_encoding_table :
    HuffmanNode → List Char → (Nat → HuffmanCode) → (Nat → HuffmanCode)
  | .leaf c _, code, table => updf table c ⟨code, 0, true⟩
  | .internal l r, code, table =>
    build_encoding_table r (code ++ ['1'])
      (build_encoding_table l (code ++ ['0']) table)

/-- The byte sequence produced by `write_uint32`: big-endian, each
byte masked with `& 0xFF` (written `% 256`). -/
def be32 (v : Nat) : List Nat :=
  [(v >>> 24) % 256, (v >>> 16) % 256, (v >>> 8) % 256, v % 256]

/-- The `#define HUFF 0x48554646` magic constant. -/
def HUFF : Nat := 0x48554646

/-- The distinct-symbol count computed by `write_provisionary_header`
(`num_unique`): the number of indices `i < freq_size` with
`freq[i] > 0`. -/
def countUnique (freq : Nat → Nat) (freq_size : Nat) : Nat :=
  ((List.range freq_size).filter (fun i => decide (0 < freq i))).length

/-- `write_provisionary_header` of huffman.c: the magic, the
distinct-symbol count, a `0` placeholder byte for the padding count,
then — for each `i` from `0` to `ENCODING_TABLE_SIZE - 1 = 255` in
ascending order with `freq[i] > 0` — the raw symbol byte and its
big-endian frequency. -/
def write_provisionary_header (freq : Nat → Nat) (freq_size : Nat) :
    List Nat :=
  be32 HUFF ++ be32 (countUnique freq freq_size) ++ [0] ++
    ((List.range 256).map
      (fun i => if 0 < freq i then i :: be32 (freq i) else [])).flatten

/-- The `BitWriter` struct of huffman.c with its `FILE *output` sink
replaced by the list of bytes emitted so far. -/
structure BitWriter : Type where
  current_byte : Nat
  bits_filled : Nat
  output : List Nat
  total_bits_written : Nat
deriving DecidableEq

/-- The zero writer `{ 0, 0, output_file }` of `encode_file`
(the missing initialiser leaves `total_bits_written` zero). -/
def initWriter : BitWriter := ⟨0, 0, [], 0⟩

/-- `write_bit` of huffman.c: OR a `1` into bit `7 - bits_filled` when
the bit is set (MSB-first packing), bump the counters, and emit the
byte once 8 bits are filled. -/
def write_bit (w : BitWriter) (bit : Bool) : BitWriter :=
  let cb := if bit then w.current_byte ||| (1 <<< (7 - w.bits_filled))
    else w.current_byte
  if w.bits_filled + 1 = 8 then
    ⟨0, 0, w.output ++ [cb], w.total_bits_written + 1⟩
  else
    ⟨cb, w.bits_filled + 1, w.output, w.total_bits_written + 1⟩

/-- `flush_bits` of huffman.c: when bits are pending, emit the
partially filled byte and report `8 - bits_filled` padding bits;
otherwise emit nothing and report `0`. -/
def flush_bits (w : BitWriter) : Nat × BitWriter :=
  if 0 < w.bits_filled then
    (8 - w.bits_filled,
      ⟨0, 0, w.output ++ [w.current_byte], w.total_bits_written⟩)
  else (0, w)

/-- `write_code` of huffman.c: one `write_bit` per character of the
code string, a bit being set exactly when the character is `'1'`. -/
def write_code (w : BitWriter) (code : List Char) : BitWriter :=
  code.foldl (fun w c => write_bit w (c == '1')) w

/-- `encode_file` of huffman.c: write the provisional header, emit
each input byte's code through the bit writer, flush, then seek to
byte offset 8 and overwrite the placeholder with the padding count
(`write_padding_to_header`, a one-byte `fseek`-and-`write_uint8`
patch, modelled by `List.set` at index 8).  Returns the container
bytes and the padding count returned by the C function. -/
def encode_file (table : Nat → HuffmanCode) (freq : Nat → Nat)
    (freq_size : Nat) (input : List Nat) : List Nat × Nat :=
  let header := write_provisionary_header freq freq_size
  let w := input.foldl (fun w c => write_code w (table c).code) initWriter
  let flushed := flush_bits w
  ((header ++ flushed.2.output).set 8 (flushed.1 % 256), flushed.1)

/-- The frequency-counting loop of `encode()`:
`while ((c = fgetc(file)) != EOF) freq[c]++;` over a zero-initialised
256-entry array. -/
def countFreq (input : List Nat) : Nat → Nat :=
  input.foldl (fun f c => updf f c (f c + 1)) (fun _ => 0)

/-- The encode pipeline of `encode()` in huffman.c: count frequencies,
build the Huffman tree, derive the encoding table, and encode.  The
function has no empty-input check: with an all-zero frequency table
`build_huffman_tree` reads a zero-length node array out of bounds,
modelled by `none`. -/
def encode_bytes (input : List Nat) : Option (List Nat) :=
  let freq := countFreq input
  match build_huffman_tree freq 256 with
  | none => none
  | some tree =>
    let table := build_encoding_table tree [] initTable
    some (encode_file table freq 256 input).1

example : encode_bytes [97, 97] =
    some [72, 85, 70, 70, 0, 0, 0, 1, 0, 97, 0, 0, 0, 2] := by decide

example : encode_bytes [97, 97, 97, 98] =
    some [72, 85, 70, 70, 0, 0, 0, 2, 4, 97, 0, 0, 0, 3, 98, 0, 0, 0, 1,
      224] := by decide

/-- `fgetc` on an in-memory byte stream: the byte at `pos`, or the
`EOF` sentinel `-1` once the stream is exhausted. -/
def fgetc (data : List Nat) (pos : Nat) : Int :=
  match data[pos]? with
  | some b => (b : Int)
  | none => -1

/-- Conversion of an `int` to `unsigned char` (two's complement):
`(-1)` becomes `255`. -/
def toUChar (c : Int) : Nat := (c.emod 256).toNat

/-- Conversion of an `int` to `unsigned int` (two's complement):
`(-1)` becomes `2^32 - 1`. -/
def toU32 (c : Int) : Nat := (c.emod (2 ^ 32)).toNat

/-- `read_uint32` of huffman.c: four `fgetc` results shifted into an
`unsigned int`, most significant byte first.  Each `int` result is
taken through the two's-complement conversion to `unsigned int`, so
an `EOF` (`-1`) contributes `0xFF` in its byte position — the
function has no end-of-stream check. -/
def read_uint32 (data : List Nat) (pos : Nat) : Nat :=
  ((toU32 (fgetc data pos) <<< 24) ||| (toU32 (fgetc data (pos + 1)) <<< 16)
    ||| (toU32 (fgetc data (pos + 2)) <<< 8)
    ||| toU32 (fgetc data (pos + 3))) % 2 ^ 32

/-- The `(symbol, frequency)`-pair loop of `read_header`: for each of
the `num_unique` claimed entries, one `fgetc` for the symbol (cast to
`unsigned char`) and one `read_uint32` for its frequency, with no
end-of-stream check on either. -/
def readEntries (data : List Nat) :
    Nat → (Nat → Nat) → Nat → ((Nat → Nat) × Nat)
  | 0, f, pos => (f, pos)
  | n + 1, f, pos =>
    readEntries data n
      (updf f (toUChar (fgetc data pos)) (read_uint32 data (pos + 1)))
      (pos + 5)

/-- The `FileHeader` struct of huffman.c (its fixed frequency array
modelled as a function). -/
structure FileHeader : Type where
  num_unique_chars : Nat
  padding_bits : Nat
  frequencies : Nat → Nat

/-- `read_header` of huffman.c: check the magic (returning `NULL`,
modelled `none`, on mismatch), then read the distinct-symbol count,
the padding byte and `num_unique` symbol/frequency pairs into a
zeroed 256-entry array.  Returns the header together with the number
of bytes consumed (the `FILE` position at which the body starts).
The `malloc` is assumed to succeed. -/
def read_header (data : List Nat) : Option (FileHeader × Nat) :=
  let encoding_type := read_uint32 data 0
  if encoding_type ≠ HUFF then none
  else
    let num_unique := read_uint32 data 4
    let padding_bits := fgetc data 8
    let res := readEntries data num_unique (fun _ => 0) 9
    some (⟨num_unique, toU32 padding_bits, res.1⟩, res.2)

/-- The `BitReader` struct of huffman.c. -/
structure BitReader : Type where
  data : List Nat
  size : Nat
  byte_index : Nat
  bit_index : Nat
deriving DecidableEq

/-- `read_bit` of huffman.c: `-1` at end of buffer, otherwise the bit
at position `7 - bit_index` of the current byte (MSB-first), the
cursor rolling to the next byte after 8 bits. -/
def read_bit (r : BitReader) : Int × BitReader :=
  if r.size ≤ r.byte_index then (-1, r)
  else
    let current_byte := r.data.getD r.byte_index 0
    let bit := ((current_byte >>> (7 - r.bit_index)) &&& 1 : Nat)
    if r.bit_index + 1 = 8 then
      ((bit : Int), ⟨r.data, r.size, r.byte_index + 1, 0⟩)
    else
      ((bit : Int), ⟨r.data, r.size, r.byte_index, r.bit_index + 1⟩)

/-- `size_t` subtraction `a - b` (wrapping modulo `2^64`), used for
`data_size * 8 - header->padding_bits` in `decode_file`. -/
def size_t_sub (a b : Nat) : Nat := ((((a : Int) - (b : Int)) % (2 ^ 64) : Int)).toNat

/-- The decoding loop of `decode_file`
(`while (bits_read < total_bits)`).  The loop counter `bits_read`
increases by one on every iteration that consumes a bit, so
`total_bits - bits_read` is used as the structural recursion measure
(`fuel`), starting at `total_bits` with `bits_read = 0`: fuel `0` is
exactly the exit condition `bits_read == total_bits`.  Descending
from a leaf dereferences a `NULL` child pointer in C; that undefined
outcome is modelled as `none`.  Returns the decoded bytes (the
`fputc` output) together with the final `bits_read`. -/
def decodeLoop (tree : HuffmanNode) :
    Nat → HuffmanNode → BitReader → List Nat → Nat →
    Option (List Nat × Nat)
  | 0, _, _, out, bits_read => some (out, bits_read)
  | fuel + 1, current, r, out, bits_read =>
    let br := read_bit r
    if br.1 == -1 then some (out, bits_read)
    else
      match current with
      | .leaf _ _ => none
      | .internal lt rt =>
        match if br.1 == 0 then lt else rt with
        | .leaf c _ =>
          decodeLoop tree fuel tree br.2 (out ++ [c]) (bits_read + 1)
        | .internal a b =>
          decodeLoop tree fuel (.internal a b) br.2 out (bits_read + 1)

/-- `decode_file` of huffman.c: read the whole remaining body into
memory, compute `total_bits = data_size * 8 - padding_bits` up front
(in `size_t` arithmetic), and run the traversal loop from the root. -/
def decode_file (header : FileHeader) (tree : HuffmanNode)
    (data : List Nat) : Option (List Nat × Nat) :=
  let total_bits := size_t_sub (data.length * 8) header.padding_bits
  decodeLoop tree total_bits tree ⟨data, data.length, 0, 0⟩ [] 0

/-- The decode pipeline of `decode()` in huffman.c: read the header
(exiting on `NULL`, modelled `none`), rebuild the Huffman tree from
the persisted frequencies, and decode the body. -/
def decode_bytes (data : List Nat) : Option (List Nat) :=
  match read_header data with
  | none => none
  | some (header, pos) =>
    match build_huffman_tree header.frequencies 256 with
    | none => none
    | some tree =>
      (decode_file header tree (data.drop pos)).map (fun x => x.1)

example : decode_bytes [72, 85, 70, 70, 0, 0, 0, 2, 4, 97, 0, 0, 0, 3,
    98, 0, 0, 0, 1, 224] = some [97, 97, 97, 98] := by decide

example : (encode_bytes [97, 97, 97, 98]).bind decode_bytes =
    some [97, 97, 97, 98] := by decide

example : (encode_bytes [97, 97]).bind decode_bytes = some [] := by decide

/-- C1: the round-trip property `decode(encode(S)) = S` fails on the
code for the non-empty input `S = "aa"` (two copies of byte 97): the
single present symbol receives a zero-length code, the encoded body
is empty, and decoding returns the empty byte sequence instead of
`S`. -/
theorem roundtrip_single_symbol_fails :
    (encode_bytes [97, 97]).bind decode_bytes = some [] ∧
    (encode_bytes [97, 97]).bind decode_bytes ≠ some [97, 97] := by
  exact ⟨by decide, by decide⟩

/-- C2: on an input of one repeated byte the tree is a single leaf
and the header has distinct-symbol count 1, as claimed, but
`build_encoding_table` assigns the symbol the zero-length code (its
leaf branch copies the accumulated path, which is empty at the root)
rather than a single-bit code, and the container decodes to the empty
sequence, not to the original bytes. -/
theorem single_symbol_empty_code :
    build_huffman_tree (countFreq [97, 97, 97]) 256 =
      some (.leaf 97 3) ∧
    (build_encoding_table (.leaf 97 3) [] initTable 97).code = [] ∧
    (build_encoding_table (.leaf 97 3) [] initTable 97).present = true ∧
    encode_bytes [97, 97, 97] =
      some [72, 85, 70, 70, 0, 0, 0, 1, 0, 97, 0, 0, 0, 3] ∧
    (encode_bytes [97, 97, 97]).bind decode_bytes = some [] := by
  exact ⟨by decide, by decide, by decide, by decide, by decide⟩

/-- C3: the encode path has no empty-input rejection: on the empty
input every frequency count is zero and `encode` still invokes the
tree builder, which has no defined root (the C code returns the first
element of a zero-length stack array, modelled `none`). -/
theorem empty_input_reaches_tree_builder :
    countFreq [] = (fun _ => 0) ∧
    build_huffman_tree (countFreq []) 256 = none ∧
    encode_bytes [] = none := by
  exact ⟨rfl, by decide, by decide⟩

/-- C4: `read_header` does not detect truncation.  On a container
whose header claims 2 symbol entries but which ends after the first
entry, it consumes `EOF` sentinels as data — the second symbol
becomes `(unsigned char)(-1) = 255` with frequency `0xFFFFFFFF` —
and returns a success header; the whole decode then returns an empty
output instead of reporting a truncated-container error. -/
theorem truncated_header_not_detected :
    (read_header
      [72, 85, 70, 70, 0, 0, 0, 2, 0, 97, 0, 0, 0, 3]).isSome = true ∧
    (read_header [72, 85, 70, 70, 0, 0, 0, 2, 0, 97, 0, 0, 0, 3]).map
      (fun x => (x.1.num_unique_chars, x.1.padding_bits,
        x.1.frequencies 97, x.1.frequencies 255, x.2)) =
      some (2, 0, 3, 4294967295, 19) ∧
    decode_bytes [72, 85, 70, 70, 0, 0, 0, 2, 0, 97, 0, 0, 0, 3] =
      some [] := by
  exact ⟨by decide, by decide, by decide⟩

theorem cPass_perm (m : Nat) (l : List HuffmanNode) :
    (cPass m l).Perm l := by
  induction m generalizing l with
  | zero => exact List.Perm.refl l
  | succ m ih =>
    match l with
    | [] => exact List.Perm.refl []
    | [a] => exact List.Perm.refl [a]
    | a :: b :: rest =>
      simp only [cPass]
      split
      · exact ((ih (a :: rest)).cons b).trans (List.Perm.swap a b rest)
      · exact (ih (b :: rest)).cons a

theorem bubbleAux_perm (m : Nat) (l : List HuffmanNode) :
    (bubbleAux m l).Perm l := by
  induction m generalizing l with
  | zero => exact List.Perm.refl l
  | succ m ih =>
    exact (ih (cPass (m + 1) l)).trans (cPass_perm (m + 1) l)

theorem sort_nodes_perm (l : List HuffmanNode) :
    (sort_nodes l).Perm l := bubbleAux_perm _ l

/-- The state of a bit writer after a sequence of `write_bit` calls
starting from the zero writer. -/
def encodeBits (bits : List Bool) : BitWriter :=
  bits.foldl write_bit initWriter

/-- Invariant of the bit-writer state: the fill count stays below 8,
the bits accounted for by flushed bytes plus the fill count equal the
running total, and the unset (low) positions of the in-progress byte
are zero. -/
def WInv (w : BitWriter) : Prop :=
  w.bits_filled < 8 ∧
  8 * w.output.length + w.bits_filled = w.total_bits_written ∧
  ∀ i, i < 8 - w.bits_filled → w.current_byte.testBit i = false

theorem write_bit_WInv (w : BitWriter) (b : Bool) (hw : WInv w) :
    WInv (write_bit w b) ∧
    (write_bit w b).total_bits_written = w.total_bits_written + 1 := by
  obtain ⟨hbf, hcount, hbits⟩ := hw
  have hcb : ∀ i, i < 8 - (w.bits_filled + 1) →
      (if b then w.current_byte ||| (1 <<< (7 - w.bits_filled))
        else w.current_byte).testBit i = false := by
    intro i hi
    cases b with
    | false => exact hbits i (by omega)
    | true =>
      simp only [if_true]
      rw [Nat.testBit_lor, hbits i (by omega), Bool.false_or,
        Nat.shiftLeft_eq, one_mul]
      exact Nat.testBit_two_pow_of_ne (by omega)
  simp only [write_bit, WInv]
  split
  · rename_i h8
    refine ⟨⟨?_, ?_, ?_⟩, ?_⟩
    · dsimp only; omega
    · dsimp only
      simp only [List.length_append, List.length_singleton]
      omega
    · dsimp only
      exact fun i _ => Nat.zero_testBit i
    · dsimp only
  · rename_i h8
    refine ⟨⟨?_, ?_, ?_⟩, ?_⟩
    · dsimp only; omega
    · dsimp only; omega
    · dsimp only
      exact hcb
    · dsimp only

theorem foldl_write_bit_WInv (bits : List Bool) (w : BitWriter)
    (hw : WInv w) :
    WInv (bits.foldl write_bit w) ∧
    (bits.foldl write_bit w).total_bits_written =
      w.total_bits_written + bits.length := by
  induction bits generalizing w with
  | nil => exact ⟨hw, rfl⟩
  | cons b bs ih =>
    simp only [List.foldl_cons, List.length_cons]
    obtain ⟨h1, h2⟩ := write_bit_WInv w b hw
    obtain ⟨H1, H2⟩ := ih (write_bit w b) h1
    exact ⟨H1, by rw [H2, h2]; omega⟩

theorem encodeBits_WInv (bits : List Bool) :
    WInv (encodeBits bits) ∧
    (encodeBits bits).total_bits_written = bits.length := by
  have h0 : WInv initWriter :=
    ⟨by decide, by decide, fun i _ => Nat.zero_testBit i⟩
  have := foldl_write_bit_WInv bits initWriter h0
  exact ⟨this.1, by simpa [encodeBits, initWriter] using this.2⟩

/-- C7: after any sequence of bits written through `write_bit`
(MSB-first packing), `flush_bits` emits the partially filled byte —
whose unset bit positions are zero — and returns `8 - bits_filled`
when bits are pending, emits nothing and returns `0` otherwise; the
returned padding is in `[0, 7]`, and the body's byte count times 8
minus the padding equals the exact number of bits written. -/
theorem bitwriter_flush_padding (bits : List Bool) :
    (flush_bits (encodeBits bits)).1 =
      (if 0 < (encodeBits bits).bits_filled then
        8 - (encodeBits bits).bits_filled else 0) ∧
    (flush_bits (encodeBits bits)).1 ≤ 7 ∧
    (0 < (encodeBits bits).bits_filled →
      (flush_bits (encodeBits bits)).2.output =
        (encodeBits bits).output ++ [(encodeBits bits).current_byte] ∧
      ∀ i, i < 8 - (encodeBits bits).bits_filled →
        (encodeBits bits).current_byte.testBit i = false) ∧
    ((encodeBits bits).bits_filled = 0 →
      (flush_bits (encodeBits bits)).2.output = (encodeBits bits).output) ∧
    8 * (flush_bits (encodeBits bits)).2.output.length =
      bits.length + (flush_bits (encodeBits bits)).1 ∧
    8 * (flush_bits (encodeBits bits)).2.output.length -
      (flush_bits (encodeBits bits)).1 = bits.length := by
  obtain ⟨⟨hbf, hcount, hbits⟩, htot⟩ := encodeBits_WInv bits
  by_cases hpos : 0 < (encodeBits bits).bits_filled
  · refine ⟨by simp [flush_bits, hpos],
      by simp [flush_bits, hpos]; omega,
      fun _ => ⟨by simp [flush_bits, hpos], hbits⟩,
      fun h0 => absurd h0 (by omega),
      by simp [flush_bits, hpos]; omega,
      by simp [flush_bits, hpos]; omega⟩
  · refine ⟨by simp [flush_bits, hpos],
      by simp [flush_bits, hpos],
      fun hp => absurd hp hpos,
      fun _ => by simp [flush_bits, hpos],
      by simp [flush_bits, hpos]; omega,
      by simp [flush_bits, hpos]; omega⟩

theorem bitwriter_flush_padding_witness :
    8 * (flush_bits (encodeBits [true, false, true])).2.output.length -
      (flush_bits (encodeBits [true, false, true])).1 = 3 :=
  (bitwriter_flush_padding [true, false, true]).2.2.2.2.2

/-- The root path recorded for symbol `c` by the code-table walk: the
walk visits the left subtree first and the right subtree second, and
a later `strcpy` into the same entry overwrites an earlier one, so
the surviving path is the last one in traversal order (right subtree
preferred). -/
def lastPath : HuffmanNode → Nat → Option (List Char)
  | .leaf c' _, c => if c' = c then some [] else none
  | .internal lt rt, c =>
    match lastPath rt c with
    | some p => some ('1' :: p)
    | none => (lastPath lt c).map (fun p => '0' :: p)

/-- Characterisation of `build_encoding_table`: the entry for `c` is
the accumulated prefix followed by the surviving root path of `c`,
and entries of absent symbols are untouched. -/
theorem build_encoding_table_eq (t : HuffmanNode) (pre : List Char)
    (tb : Nat → HuffmanCode) (c : Nat) :
    build_encoding_table t pre tb c =
      (match lastPath t c with
       | some p => ⟨pre ++ p, 0, true⟩
       | none => tb c) := by
  induction t generalizing pre tb with
  | leaf c' w =>
    simp only [build_encoding_table, lastPath, updf]
    by_cases h : c' = c
    · subst h
      simp
    · rw [if_neg (fun hc => h hc.symm), if_neg h]
  | internal lt rt ihl ihr =>
    simp only [build_encoding_table]
    rw [ihr, ihl]
    simp only [lastPath]
    cases hrt : lastPath rt c with
    | some p =>
      simp [List.append_assoc]
    | none =>
      cases hlt : lastPath lt c with
      | some p => simp [List.append_assoc]
      | none => simp

/-- Root paths to leaves are mutually prefix-free: if one recorded
path is a prefix of another, they are the same path to the same
symbol. -/
theorem lastPath_prefix_eq (t : HuffmanNode) (a b : Nat)
    (pa pb : List Char) (ha : lastPath t a = some pa)
    (hb : lastPath t b = some pb) (hpre : pa <+: pb) :
    a = b ∧ pa = pb := by
  induction t generalizing pa pb with
  | leaf c' w =>
    simp only [lastPath] at ha hb
    by_cases hca : c' = a
    · by_cases hcb : c' = b
      · exact ⟨hca ▸ hcb, by
          rw [if_pos hca] at ha
          rw [if_pos hcb] at hb
          cases ha; cases hb; rfl⟩
      · rw [if_neg hcb] at hb
        exact absurd hb (Option.noConfusion)
    · rw [if_neg hca] at ha
      exact absurd ha (Option.noConfusion)
  | internal lt rt ihl ihr =>
    simp only [lastPath] at ha hb
    cases hrta : lastPath rt a with
    | some p =>
      rw [hrta] at ha
      cases ha
      cases hrtb : lastPath rt b with
      | some p' =>
        rw [hrtb] at hb
        cases hb
        obtain ⟨h1, h2⟩ := ihr p p' hrta hrtb
          ((List.cons_prefix_cons.mp hpre).2)
        exact ⟨h1, by rw [h2]⟩
      | none =>
        rw [hrtb] at hb
        cases hltb : lastPath lt b with
        | some p' =>
          rw [hltb] at hb
          cases hb
          exact absurd (List.cons_prefix_cons.mp hpre).1 (by decide)
        | none => rw [hltb] at hb; exact absurd hb (Option.noConfusion)
    | none =>
      rw [hrta] at ha
      cases hlta : lastPath lt a with
      | some p =>
        rw [hlta] at ha
        cases ha
        cases hrtb : lastPath rt b with
        | some p' =>
          rw [hrtb] at hb
          cases hb
          exact absurd (List.cons_prefix_cons.mp hpre).1 (by decide)
        | none =>
          rw [hrtb] at hb
          cases hltb : lastPath lt b with
          | some p' =>
            rw [hltb] at hb
            cases hb
            obtain ⟨h1, h2⟩ := ihl p p' hlta hltb
              ((List.cons_prefix_cons.mp hpre).2)
            exact ⟨h1, by rw [h2]⟩
          | none => rw [hltb] at hb; exact absurd hb (Option.noConfusion)
      | none => rw [hlta] at ha; exact absurd ha (Option.noConfusion)

/-- C9: the code table generated from a Huffman tree is prefix-free:
for distinct symbols `a` and `b` both present in the table, the code
of `a` is not a prefix of the code of `b`. -/
theorem code_table_prefix_free (freq : Nat → Nat) (fs : Nat)
    (root : HuffmanNode) (_h : build_huffman_tree freq fs = some root)
    (a b : Nat) (hab : a ≠ b)
    (ha : (build_encoding_table root [] initTable a).present = true)
    (hb : (build_encoding_table root [] initTable b).present = true) :
    ¬ (build_encoding_table root [] initTable a).code <+:
      (build_encoding_table root [] initTable b).code := by
  intro hpre
  rw [build_encoding_table_eq root [] initTable a] at ha hpre
  rw [build_encoding_table_eq root [] initTable b] at hb hpre
  cases hpa : lastPath root a with
  | none => rw [hpa] at ha; exact absurd ha (by simp [initTable])
  | some pa =>
    cases hpb : lastPath root b with
    | none => rw [hpb] at hb; exact absurd hb (by simp [initTable])
    | some pb =>
      rw [hpa, hpb] at hpre
      simp only [List.nil_append] at hpre
      exact hab (lastPath_prefix_eq root a b pa pb hpa hpb hpre).1

theorem code_table_prefix_free_witness :
    ¬ (build_encoding_table
        (.internal (.leaf 98 1) (.leaf 97 2)) [] initTable 97).code <+:
      (build_encoding_table
        (.internal (.leaf 98 1) (.leaf 97 2)) [] initTable 98).code :=
  code_table_prefix_free
    (fun i => if i = 97 then 2 else if i = 98 then 1 else 0) 256
    (.internal (.leaf 98 1) (.leaf 97 2)) (by decide)
    97 98 (by decide) (by decide) (by decide)

theorem leafCount_pos (t : HuffmanNode) : 1 ≤ t.leafCount := by
  induction t with
  | leaf c w => exact Nat.le_refl 1
  | internal l r ihl ihr =>
    simp only [HuffmanNode.leafCount]
    omega

/-- A tree whose internal nodes all have two children (the only shape
`create_parent_node` builds) has height at most its leaf count minus
one. -/
theorem height_le_leafCount (t : HuffmanNode) :
    t.height ≤ t.leafCount - 1 := by
  induction t with
  | leaf c w => exact Nat.le_refl 0
  | internal l r ihl ihr =>
    have h1 := leafCount_pos l
    have h2 := leafCount_pos r
    simp only [HuffmanNode.height, HuffmanNode.leafCount]
    omega

theorem lastPath_length_le_height (t : HuffmanNode) (c : Nat)
    (p : List Char) (h : lastPath t c = some p) :
    p.length ≤ t.height := by
  induction t generalizing p with
  | leaf c' w =>
    simp only [lastPath] at h
    by_cases hc : c' = c
    · rw [if_pos hc] at h
      cases h
      exact Nat.le_refl 0
    · rw [if_neg hc] at h
      exact absurd h Option.noConfusion
  | internal lt rt ihl ihr =>
    simp only [lastPath] at h
    cases hrt : lastPath rt c with
    | some q =>
      rw [hrt] at h
      cases h
      have := ihr q hrt
      simp only [HuffmanNode.height, List.length_cons]
      omega
    | none =>
      rw [hrt] at h
      cases hlt : lastPath lt c with
      | some q =>
        rw [hlt] at h
        cases h
        have := ihl q hlt
        simp only [HuffmanNode.height, List.length_cons]
        omega
      | none =>
        rw [hlt] at h
        exact absurd h Option.noConfusion

theorem lastPath_internal_pos (lt rt : HuffmanNode) (c : Nat)
    (p : List Char) (h : lastPath (.internal lt rt) c = some p) :
    0 < p.length := by
  simp only [lastPath] at h
  cases hrt : lastPath rt c with
  | some q =>
    rw [hrt] at h
    cases h
    simp
  | none =>
    rw [hrt] at h
    cases hlt : lastPath lt c with
    | some q =>
      rw [hlt] at h
      cases h
      simp
    | none =>
      rw [hlt] at h
      exact absurd h Option.noConfusion

/-- The initial working list of the tree builder has one leaf per
present symbol. -/
theorem initial_leaves_sum (freq : Nat → Nat) (fs : Nat) :
    (((List.range fs).filterMap (fun i =>
      if 0 < freq i then some (HuffmanNode.leaf i (freq i)) else none)).map
        HuffmanNode.leafCount).sum = countUnique freq fs := by
  simp only [countUnique]
  generalize List.range fs = l
  induction l with
  | nil => rfl
  | cons a t ih =>
    by_cases h : 0 < freq a
    · simp [List.filterMap_cons, h, ih, HuffmanNode.leafCount]
      omega
    · simp [List.filterMap_cons, h, ih]

/-- The merging loop preserves the total leaf count of the working
list. -/
theorem buildLoop_leafCount (l : List HuffmanNode) (root : HuffmanNode)
    (h : buildLoop l = some root) :
    root.leafCount = (l.map HuffmanNode.leafCount).sum := by
  suffices H : ∀ n (l : List HuffmanNode), l.length = n →
      ∀ root, buildLoop l = some root →
      root.leafCount = (l.map HuffmanNode.leafCount).sum from
    H l.length l rfl root h
  intro n
  induction n using Nat.strong_induction_on with
  | _ n ih =>
    intro l hn root h
    match l with
    | [] =>
      rw [show buildLoop ([] : List HuffmanNode) = none from rfl] at h
      exact absurd h Option.noConfusion
    | [a] =>
      have ha : buildLoop [a] = some a := rfl
      rw [h] at ha
      cases ha
      simp
    | a :: b :: rest =>
      have hs := length_sort_nodes (a :: b :: rest)
      match hsort : sort_nodes (a :: b :: rest) with
      | x :: y :: s =>
        rw [hsort] at hs
        simp only [List.length_cons] at hs hn
        rw [buildLoop_cons₂ a b rest x y s hsort] at h
        have hrec := ih (s.length + 1) (by omega) _ (by simp) root h
        have hperm : ((x :: y :: s).map HuffmanNode.leafCount).sum =
            ((a :: b :: rest).map HuffmanNode.leafCount).sum := by
          have hp := sort_nodes_perm (a :: b :: rest)
          rw [hsort] at hp
          exact (hp.map HuffmanNode.leafCount).sum_eq
        rw [hrec]
        simp only [List.map_cons, List.sum_cons,
          HuffmanNode.leafCount] at hperm ⊢
        omega
      | [] => simp [hsort] at hs
      | [x] => simp [hsort] at hs

/-- C10: with at least two present symbols every recorded code is
non-empty and of length at most `n - 1 ≤ 255` (for `n` present
symbols out of 256), so every code and its terminator fit in the
256-byte per-entry buffer and the recursion depth of the table walk
stays within 255. -/
theorem code_length_bounds (freq : Nat → Nat) (root : HuffmanNode)
    (h : build_huffman_tree freq 256 = some root)
    (hn : 2 ≤ countUnique freq 256) (c : Nat)
    (hc : (build_encoding_table root [] initTable c).present = true) :
    0 < (build_encoding_table root [] initTable c).code.length ∧
    (build_encoding_table root [] initTable c).code.length ≤
      countUnique freq 256 - 1 ∧
    countUnique freq 256 - 1 ≤ 255 := by
  have hleaf : root.leafCount = countUnique freq 256 := by
    have hl := buildLoop_leafCount _ root h
    rw [initial_leaves_sum] at hl
    exact hl
  have hle : countUnique freq 256 ≤ 256 := by
    have := List.length_filter_le
      (fun i => decide (0 < freq i)) (List.range 256)
    simpa [countUnique] using this
  rw [build_encoding_table_eq root [] initTable c] at hc ⊢
  cases hpc : lastPath root c with
  | none =>
    simp only [hpc] at hc
    simp [initTable] at hc
  | some p =>
    simp only [hpc] at hc ⊢
    simp only [List.nil_append]
    have hheight := lastPath_length_le_height root c p hpc
    have hbound := height_le_leafCount root
    match root with
    | .leaf c' w =>
      rw [show (HuffmanNode.leaf c' w).leafCount = 1 from rfl] at hleaf
      omega
    | .internal lt rt =>
      have hpos := lastPath_internal_pos lt rt c p hpc
      refine ⟨hpos, by omega, by omega⟩

theorem code_length_bounds_witness :
    0 < (build_encoding_table (.internal (.leaf 98 1) (.leaf 97 2)) []
      initTable 97).code.length ∧
    (build_encoding_table (.internal (.leaf 98 1) (.leaf 97 2)) []
      initTable 97).code.length ≤
      countUnique
        (fun i => if i = 97 then 2 else if i = 98 then 1 else 0) 256 - 1 ∧
    countUnique
      (fun i => if i = 97 then 2 else if i = 98 then 1 else 0) 256 - 1
      ≤ 255 :=
  code_length_bounds
    (fun i => if i = 97 then 2 else if i = 98 then 1 else 0)
    (.internal (.leaf 98 1) (.leaf 97 2)) (by decide) (by decide)
    97 (by decide)

end Huffman
